import Mathlib

/-!
Verification of the core text transform of `src/BionicReader.py`
(function `bionic_reading`, lines 49-62).

The Python source:

  tokens = re.findall(r"[A-Za-z0-9]+|[^A-Za-z0-9]+", text)
  result = []
  for token in tokens:
      if re.match(r"[A-Za-z0-9]+", token):
          bold_len = max(1, int(len(token) * bold_ratio))
          result.append(f"<b>{token[:bold_len]}</b>{token[bold_len:]}")
      else:
          result.append(token)
  return "".join(result)

Text is modelled as `List Char`, the bold ratio as an exact rational `ℚ`
(the spec treats the ratio as a real number; Python's `int(...)` truncation
toward zero on the product is modelled exactly by `ratTrunc`).
-/

/-- A character matches the regex class `[A-Za-z0-9]`: ASCII upper-case
letter, lower-case letter or digit, compared by code point as the regex
engine does. -/
def isWordChar (c : Char) : Bool :=
  (decide ('A' ≤ c) && decide (c ≤ 'Z')) ||
  (decide ('a' ≤ c) && decide (c ≤ 'z')) ||
  (decide ('0' ≤ c) && decide (c ≤ '9'))

/-- `re.match(r"[A-Za-z0-9]+", token)` (line 57) succeeds exactly when the
token is non-empty and its first character is in the class. -/
def isWordToken : List Char → Bool
  | [] => false
  | c :: _ => isWordChar c

/-- The tokenizer `re.findall(r"[A-Za-z0-9]+|[^A-Za-z0-9]+", text)` (line 54):
it splits `text` into the (unique) maximal runs of characters of equal
class under `isWordChar`.  Built by a right fold: each character is
prepended to the following token when the classes agree, and otherwise
starts a fresh token. -/
def tokenize : List Char → List (List Char)
  | [] => []
  | c :: cs =>
    match tokenize cs with
    | [] => [[c]]
    | t :: ts => if isWordChar c = isWordToken t then (c :: t) :: ts else [c] :: t :: ts

/-- Python `int(q)` on an exact rational: truncation toward zero. -/
def ratTrunc (q : ℚ) : ℤ :=
  if q < 0 then -⌊-q⌋ else ⌊q⌋

/-- `max(1, int(len(token) * bold_ratio))` from line 58. -/
def bold_len (bold_ratio : ℚ) (n : ℕ) : ℤ :=
  max 1 (ratTrunc ((n : ℚ) * bold_ratio))

/-- The emphasized (bolded) leading substring of a token: `token[:bold_len]`
for a word token, empty for a non-word token. -/
def emphPart (bold_ratio : ℚ) (t : List Char) : List Char :=
  if isWordToken t then t.take (bold_len bold_ratio t.length).toNat else []

/-- The plain trailing substring of a token: `token[bold_len:]` for a word
token, the whole token for a non-word token. -/
def plainPart (bold_ratio : ℚ) (t : List Char) : List Char :=
  if isWordToken t then t.drop (bold_len bold_ratio t.length).toNat else t

/-- The loop body (lines 56-61): a word token is rendered as
`<b>` ++ emphasized part ++ `</b>` ++ plain part, any other token verbatim. -/
def renderToken (bold_ratio : ℚ) (t : List Char) : List Char :=
  if isWordToken t then
    ['<', 'b', '>'] ++ t.take (bold_len bold_ratio t.length).toNat ++
      ['<', '/', 'b', '>'] ++ t.drop (bold_len bold_ratio t.length).toNat
  else t

/-- `bionic_reading(text, bold_ratio)` (lines 49-62): tokenize, render each
token, join. -/
def bionic_reading (text : List Char) (bold_ratio : ℚ) : List Char :=
  ((tokenize text).map (renderToken bold_ratio)).flatten

/-! ### Tokenizer invariants -/

theorem tokenize_cons_nil (c : Char) (cs : List Char) (h : tokenize cs = []) :
    tokenize (c :: cs) = [[c]] := by
  rw [tokenize, h]

theorem tokenize_cons_cons (c : Char) (cs t : List Char) (ts : List (List Char))
    (h : tokenize cs = t :: ts) :
    tokenize (c :: cs) =
      if isWordChar c = isWordToken t then (c :: t) :: ts else [c] :: t :: ts := by
  rw [tokenize, h]

theorem tokenize_flatten (l : List Char) : (tokenize l).flatten = l := by
  induction l with
  | nil => rfl
  | cons c cs ih =>
    cases h : tokenize cs with
    | nil =>
      rw [h] at ih
      simp only [List.flatten_nil] at ih
      rw [tokenize_cons_nil c cs h, ← ih]
      rfl
    | cons t ts =>
      rw [h] at ih
      simp only [List.flatten_cons] at ih
      rw [tokenize_cons_cons c cs t ts h]
      split <;> simp [List.flatten_cons, ih]

theorem tokenize_ne_nil (l : List Char) : ∀ t ∈ tokenize l, t ≠ [] := by
  induction l with
  | nil => simp [tokenize]
  | cons c cs ih =>
    cases h : tokenize cs with
    | nil => rw [tokenize_cons_nil c cs h]; simp
    | cons t ts =>
      rw [h] at ih
      rw [tokenize_cons_cons c cs t ts h]
      split
      · intro u hu
        rcases List.mem_cons.mp hu with rfl | hu
        · simp
        · exact ih u (List.mem_cons_of_mem _ hu)
      · intro u hu
        rcases List.mem_cons.mp hu with rfl | hu
        · simp
        · exact ih u hu

theorem tokenize_uniform (l : List Char) :
    ∀ t ∈ tokenize l, ∀ c ∈ t, isWordChar c = isWordToken t := by
  induction l with
  | nil => simp [tokenize]
  | cons c cs ih =>
    cases h : tokenize cs with
    | nil =>
      rw [tokenize_cons_nil c cs h]
      intro u hu d hd
      rcases List.mem_singleton.mp hu with rfl
      rcases List.mem_singleton.mp hd with rfl
      rfl
    | cons t ts =>
      rw [h] at ih
      rw [tokenize_cons_cons c cs t ts h]
      rcases eq_or_ne (isWordChar c) (isWordToken t) with hc | hc
      · rw [if_pos hc]
        intro u hu d hd
        rcases List.mem_cons.mp hu with rfl | hu
        · rcases List.mem_cons.mp hd with rfl | hd
          · rfl
          · have hdt := ih t (List.mem_cons_self _ _) d hd
            show isWordChar d = isWordChar c
            rw [hdt, ← hc]
        · exact ih u (List.mem_cons_of_mem _ hu) d hd
      · rw [if_neg hc]
        intro u hu d hd
        rcases List.mem_cons.mp hu with rfl | hu
        · rcases List.mem_singleton.mp hd with rfl
          rfl
        · exact ih u hu d hd

theorem tokenize_chain (l : List Char) :
    List.Chain' (fun a b => isWordToken a ≠ isWordToken b) (tokenize l) := by
  induction l with
  | nil => simp [tokenize]
  | cons c cs ih =>
    cases h : tokenize cs with
    | nil => rw [tokenize_cons_nil c cs h]; simp
    | cons t ts =>
      rw [h] at ih
      rw [tokenize_cons_cons c cs t ts h]
      rcases eq_or_ne (isWordChar c) (isWordToken t) with hc | hc
      · rw [if_pos hc]
        cases ts with
        | nil => simp
        | cons u ts2 =>
          rw [List.chain'_cons] at ih ⊢
          refine ⟨?_, ih.2⟩
          show isWordChar c ≠ isWordToken u
          rw [hc]
          exact ih.1
      · rw [if_neg hc]
        rw [List.chain'_cons]
        exact ⟨hc, ih⟩

/-! ### Emphasis-length lemmas -/

theorem max_one_ratTrunc (q : ℚ) : max 1 (ratTrunc q) = max 1 ⌊q⌋ := by
  unfold ratTrunc
  by_cases h : q < 0
  · rw [if_pos h]
    have h1 : ⌊q⌋ ≤ 0 := Int.floor_nonpos h.le
    have h2 : (0 : ℤ) ≤ ⌊-q⌋ := Int.floor_nonneg.mpr (by linarith)
    rw [max_eq_left (by omega : -⌊-q⌋ ≤ 1), max_eq_left (by omega : ⌊q⌋ ≤ 1)]
  · rw [if_neg h]

theorem ratTrunc_of_nonneg (q : ℚ) (h : 0 ≤ q) : ratTrunc q = ⌊q⌋ :=
  if_neg (not_lt.mpr h)

theorem bold_len_eq_floor (r : ℚ) (n : ℕ) : bold_len r n = max 1 ⌊(n : ℚ) * r⌋ :=
  max_one_ratTrunc _

theorem one_le_bold_len (r : ℚ) (n : ℕ) : 1 ≤ bold_len r n :=
  le_max_left _ _

theorem length_le_bold_len (r : ℚ) (n : ℕ) (hr : 1 ≤ r) : (n : ℤ) ≤ bold_len r n := by
  rw [bold_len_eq_floor]
  have h1 : (n : ℚ) ≤ (n : ℚ) * r := le_mul_of_one_le_right (Nat.cast_nonneg n) hr
  have h2 : (n : ℤ) ≤ ⌊(n : ℚ) * r⌋ := Int.le_floor.mpr (by push_cast; exact h1)
  exact le_trans h2 (le_max_right _ _)

theorem bold_len_mono (r : ℚ) (n1 n2 : ℕ) (hr : 0 ≤ r) (hle : n1 ≤ n2) :
    bold_len r n1 ≤ bold_len r n2 := by
  rw [bold_len_eq_floor, bold_len_eq_floor]
  have h1 : (n1 : ℚ) * r ≤ (n2 : ℚ) * r :=
    mul_le_mul_of_nonneg_right (by exact_mod_cast hle) hr
  exact max_le_max le_rfl (Int.floor_le_floor h1)

theorem emphPart_append_plainPart (r : ℚ) (t : List Char) :
    emphPart r t ++ plainPart r t = t := by
  unfold emphPart plainPart
  split
  · exact List.take_append_drop _ _
  · rfl

/-! ### Claim theorems -/

/-- Claim C1: for every input text and every ratio, concatenating, in token
order, the emphasized substring followed by the plain substring of every
token yields exactly the input text: the transform never reorders, drops or
duplicates characters. -/
theorem transform_preserves_characters (text : List Char) (r : ℚ) :
    ((tokenize text).map (fun t => emphPart r t ++ plainPart r t)).flatten = text := by
  have hpt := emphPart_append_plainPart r
  simp only [hpt]
  simpa using tokenize_flatten text

/-- Claim C2: concatenating the raw characters of every token produced by the
tokenizer, in order, reconstructs the input exactly (so every character
belongs to exactly one token), and the empty input yields the empty token
sequence. -/
theorem tokenize_lossless (T : List Char) :
    (tokenize T).flatten = T ∧ tokenize ([] : List Char) = [] :=
  ⟨tokenize_flatten T, rfl⟩

/-- Claim C3: for every word length `L ≥ 1` and every ratio `r`, the emphasis
length computed by the code (`max(1, int(L * r))`, truncation toward zero)
equals `max 1 ⌊L * r⌋`, the floor clamped to a minimum of 1; in particular it
is `2` at `L = 5, r = 0.4` and `1` at `L = 1, r = 0.1`. -/
theorem emphasis_length_formula (L : ℕ) (r : ℚ) (hL : 1 ≤ L) :
    bold_len r L = max 1 ⌊(L : ℚ) * r⌋ ∧
      bold_len (0.4 : ℚ) 5 = 2 ∧ bold_len (0.1 : ℚ) 1 = 1 := by
  refine ⟨bold_len_eq_floor r L, ?_, ?_⟩
  · norm_num [bold_len, ratTrunc]
  · norm_num [bold_len, ratTrunc]

theorem emphasis_length_formula_witness :
    bold_len (0.4 : ℚ) 5 = max 1 ⌊(5 : ℚ) * 0.4⌋ ∧
      bold_len (0.4 : ℚ) 5 = 2 ∧ bold_len (0.1 : ℚ) 1 = 1 := by
  have h := emphasis_length_formula 5 (0.4 : ℚ) (by norm_num)
  exact ⟨by exact_mod_cast h.1, h.2⟩

/-- Claim C5: the token sequence of any input is a maximal run-length
partition: every token is non-empty, all characters of a token have the class
of the token, and no two adjacent tokens have the same class. -/
theorem tokenize_maximal_partition (T : List Char) :
    (∀ t ∈ tokenize T, t ≠ [] ∧ ∀ c ∈ t, isWordChar c = isWordToken t) ∧
      List.Chain' (fun a b => isWordToken a ≠ isWordToken b) (tokenize T) :=
  ⟨fun t ht => ⟨tokenize_ne_nil T t ht, tokenize_uniform T t ht⟩, tokenize_chain T⟩

theorem tokenize_maximal_partition_witness :
    (['H', 'i'] : List Char) ≠ [] ∧
      List.Chain' (fun a b => isWordToken a ≠ isWordToken b) (tokenize ['H', 'i', '!']) :=
  ⟨((tokenize_maximal_partition ['H', 'i', '!']).1 ['H', 'i'] (by decide)).1,
    (tokenize_maximal_partition ['H', 'i', '!']).2⟩

/-- Claim C7: for every word length `L ≥ 1` and every ratio (including
non-positive ratios) the computed emphasis length is at least 1. -/
theorem emphasis_length_min_one (L : ℕ) (r : ℚ) (hL : 1 ≤ L) : 1 ≤ bold_len r L :=
  one_le_bold_len r L

theorem emphasis_length_min_one_witness : 1 ≤ bold_len (-1 : ℚ) 3 :=
  emphasis_length_min_one 3 (-1) (by norm_num)

/-- Claim C8: for a fixed ratio in the open interval `(0, 1)`, the emphasis
length is non-decreasing in the word length. -/
theorem emphasis_length_monotone (r : ℚ) (L1 L2 : ℕ) (h0 : 0 < r) (h1 : r < 1)
    (hL1 : 1 ≤ L1) (hle : L1 ≤ L2) : bold_len r L1 ≤ bold_len r L2 :=
  bold_len_mono r L1 L2 h0.le hle

theorem emphasis_length_monotone_witness : bold_len (1/2 : ℚ) 2 ≤ bold_len (1/2 : ℚ) 4 :=
  emphasis_length_monotone (1/2) 2 4 (by norm_num) (by norm_num) (by norm_num) (by norm_num)

/-- Claim C9: a non-word token is emitted verbatim, unmodified, with no
markup added. -/
theorem other_run_verbatim (r : ℚ) (t : List Char) (h : isWordToken t = false) :
    renderToken r t = t := by
  unfold renderToken
  rw [h]
  simp

theorem other_run_verbatim_witness : renderToken (2/5 : ℚ) [',', ' '] = [',', ' '] :=
  other_run_verbatim (2/5) [',', ' '] rfl

/-- Claim C4: for every ratio at least 1 and every word token, the emphasized
substring is clamped to the full word (`token[:bold_len]` cannot pass the end
of the word) and the plain part is empty; in particular
`bionic_reading("a1 b2", 1.5)` is `"<b>a1</b> <b>b2</b>"`. -/
theorem ratio_ge_one_full_emphasis (r : ℚ) (t : List Char) (hr : 1 ≤ r)
    (ht : isWordToken t = true) :
    (emphPart r t = t ∧ plainPart r t = []) ∧
      bionic_reading ['a', '1', ' ', 'b', '2'] (3/2 : ℚ) =
        ['<', 'b', '>', 'a', '1', '<', '/', 'b', '>', ' ',
          '<', 'b', '>', 'b', '2', '<', '/', 'b', '>'] := by
  have hk : t.length ≤ (bold_len r t.length).toNat := by
    have := length_le_bold_len r t.length hr
    omega
  refine ⟨⟨?_, ?_⟩, ?_⟩
  · unfold emphPart
    rw [ht]
    simp [List.take_of_length_le hk]
  · unfold plainPart
    rw [ht]
    simp [List.drop_eq_nil_of_le hk]
  · have h1 : tokenize ['a', '1', ' ', 'b', '2'] = [['a', '1'], [' '], ['b', '2']] := by
      decide
    have h2 : bold_len (3/2 : ℚ) 2 = 3 := by norm_num [bold_len, ratTrunc]
    simp +decide [bionic_reading, h1, renderToken, h2]

theorem ratio_ge_one_full_emphasis_witness :
    (emphPart (3/2 : ℚ) ['a', '1'] = ['a', '1'] ∧ plainPart (3/2 : ℚ) ['a', '1'] = []) ∧
      bionic_reading ['a', '1', ' ', 'b', '2'] (3/2 : ℚ) =
        ['<', 'b', '>', 'a', '1', '<', '/', 'b', '>', ' ',
          '<', 'b', '>', 'b', '2', '<', '/', 'b', '>'] :=
  ratio_ge_one_full_emphasis (3/2) ['a', '1'] (by norm_num) (by decide)

/-- Claim C6: the tokenizer classifies a character as a word character exactly
when it is an ASCII letter or ASCII digit (this coincides with
`Char.isAlphanum`); every other character, including non-ASCII letters,
whitespace, punctuation and symbols, is a non-word character; in particular
`tokenize("Hello, world!")` is `["Hello", ", ", "world", "!"]` with classes
word, other, word, other. -/
theorem word_char_classification :
    (∀ c : Char, isWordChar c = c.isAlphanum) ∧
      tokenize ['H', 'e', 'l', 'l', 'o', ',', ' ', 'w', 'o', 'r', 'l', 'd', '!'] =
        [['H', 'e', 'l', 'l', 'o'], [',', ' '], ['w', 'o', 'r', 'l', 'd'], ['!']] ∧
      (tokenize ['H', 'e', 'l', 'l', 'o', ',', ' ', 'w', 'o', 'r', 'l', 'd', '!']).map
          isWordToken = [true, false, true, false] ∧
      isWordChar 'é' = false ∧ isWordChar ' ' = false ∧ isWordChar '&' = false := by
  refine ⟨fun c => ?_, by decide, by decide, by decide, by decide, by decide⟩
  simp only [isWordChar, Char.isAlphanum, Char.isAlpha, Char.isDigit, Char.isUpper,
    Char.isLower, Char.le_def, ge_iff_le]
  rfl

/-! ### Tag removal (for claim C10) -/

/-- One left-to-right pass over a string removing every occurrence of the
tag strings `<b>` and `</b>`.  Occurrences of the two tag strings are
pairwise disjoint in any string (neither tag string overlaps itself or the
other), so this single pass removes exactly the occurrences present in its
input. -/
def stripTags : List Char → List Char
  | '<' :: 'b' :: '>' :: rest => stripTags rest
  | '<' :: '/' :: 'b' :: '>' :: rest => stripTags rest
  | c :: rest => c :: stripTags rest
  | [] => []

theorem stripTags_open (l : List Char) : stripTags ('<' :: 'b' :: '>' :: l) = stripTags l := rfl

theorem stripTags_close (l : List Char) :
    stripTags ('<' :: '/' :: 'b' :: '>' :: l) = stripTags l := rfl

theorem stripTags_cons_ne (c : Char) (l : List Char) (h : c ≠ '<') :
    stripTags (c :: l) = c :: stripTags l := by
  rw [stripTags.eq_def]
  split
  · rename_i heq; rw [List.cons.injEq] at heq; exact absurd heq.1 h
  · rename_i heq; rw [List.cons.injEq] at heq; exact absurd heq.1 h
  · rename_i heq; rw [List.cons.injEq] at heq; rw [heq.1, heq.2]
  · rename_i heq; exact absurd heq (by simp)

theorem stripTags_cons_lt (l : List Char) (h1 : ∀ u : List Char, l ≠ 'b' :: '>' :: u)
    (h2 : ∀ u : List Char, l ≠ '/' :: 'b' :: '>' :: u) :
    stripTags ('<' :: l) = '<' :: stripTags l := by
  rw [stripTags.eq_def]
  split
  · rename_i heq; rw [List.cons.injEq] at heq; exact absurd heq.2 (h1 _)
  · rename_i heq; rw [List.cons.injEq] at heq; exact absurd heq.2 (h2 _)
  · rename_i heq; rw [List.cons.injEq] at heq; rw [heq.1, heq.2]
  · rename_i heq; exact absurd heq (by simp)

/-- A stream in front of which a pending `<` cannot complete a tag
occurrence: it neither starts with `b` nor with `/b`.  The rendering of any
well-formed token list is such a stream. -/
def safeStream (s : List Char) : Prop :=
  (∀ u : List Char, s ≠ 'b' :: u) ∧ (∀ u : List Char, s ≠ '/' :: 'b' :: u)

theorem stripTags_word_append (w : List Char) (hw : ∀ c ∈ w, isWordChar c = true)
    (rest : List Char) : stripTags (w ++ rest) = w ++ stripTags rest := by
  induction w with
  | nil => rfl
  | cons c w ih =>
    have hc : c ≠ '<' := by
      intro heq
      have h1 := hw c (List.mem_cons_self _ _)
      rw [heq] at h1
      exact absurd h1 (by decide)
    rw [List.cons_append, stripTags_cons_ne c _ hc,
      ih (fun d hd => hw d (List.mem_cons_of_mem _ hd)), List.cons_append]

theorem stripTags_other_append (o : List Char) (ho : ∀ c ∈ o, isWordChar c = false)
    (rest : List Char) (hrest : safeStream rest) :
    stripTags (o ++ rest) = o ++ stripTags rest := by
  induction o with
  | nil => rfl
  | cons c o ih =>
    have ho2 : ∀ d ∈ o, isWordChar d = false := fun d hd => ho d (List.mem_cons_of_mem _ hd)
    rw [List.cons_append]
    by_cases hc : c = '<'
    · subst hc
      have h1 : ∀ u : List Char, o ++ rest ≠ 'b' :: '>' :: u := by
        intro u hu
        cases o with
        | nil =>
          rw [List.nil_append] at hu
          exact hrest.1 ('>' :: u) hu
        | cons d o2 =>
          rw [List.cons_append, List.cons.injEq] at hu
          have hd := ho2 d (List.mem_cons_self _ _)
          rw [hu.1] at hd
          exact absurd hd (by decide)
      have h2 : ∀ u : List Char, o ++ rest ≠ '/' :: 'b' :: '>' :: u := by
        intro u hu
        cases o with
        | nil =>
          rw [List.nil_append] at hu
          exact hrest.2 ('>' :: u) hu
        | cons d o2 =>
          rw [List.cons_append, List.cons.injEq] at hu
          cases o2 with
          | nil =>
            rw [List.nil_append] at hu
            exact hrest.1 ('>' :: u) hu.2
          | cons e o3 =>
            rw [List.cons_append, List.cons.injEq] at hu
            have he := ho2 e (List.mem_cons_of_mem _ (List.mem_cons_self _ _))
            rw [hu.2.1] at he
            exact absurd he (by decide)
      rw [stripTags_cons_lt (o ++ rest) h1 h2, ih ho2]
      rfl
    · rw [stripTags_cons_ne c _ hc, ih ho2]
      rfl

theorem renderToken_word (r : ℚ) (t : List Char) (hw : isWordToken t = true) :
    renderToken r t = '<' :: 'b' :: '>' ::
      (t.take (bold_len r t.length).toNat ++
        '<' :: '/' :: 'b' :: '>' :: t.drop (bold_len r t.length).toNat) := by
  unfold renderToken
  rw [hw]
  simp

theorem renderToken_other (r : ℚ) (t : List Char) (hw : isWordToken t = false) :
    renderToken r t = t := by
  unfold renderToken
  rw [hw]
  simp

theorem renderAll_safe (r : ℚ) : ∀ ts : List (List Char),
    (∀ t ∈ ts, t ≠ [] ∧ ∀ c ∈ t, isWordChar c = isWordToken t) →
    safeStream ((ts.map (renderToken r)).flatten) := by
  intro ts
  induction ts with
  | nil => exact fun _ => ⟨fun u h => by simp at h, fun u h => by simp at h⟩
  | cons t ts ih =>
    intro hgood
    have hts : ∀ u ∈ ts, u ≠ [] ∧ ∀ c ∈ u, isWordChar c = isWordToken u :=
      fun u hu => hgood u (List.mem_cons_of_mem _ hu)
    obtain ⟨htne, hunif⟩ := hgood t (List.mem_cons_self _ _)
    simp only [List.map_cons, List.flatten_cons]
    cases hw : isWordToken t with
    | true =>
      rw [renderToken_word r t hw, List.cons_append]
      refine ⟨fun u h => ?_, fun u h => ?_⟩
      · rw [List.cons.injEq] at h
        exact absurd h.1 (by decide)
      · rw [List.cons.injEq] at h
        exact absurd h.1 (by decide)
    | false =>
      rw [renderToken_other r t hw]
      cases t with
      | nil => exact absurd rfl htne
      | cons c t2 =>
        rw [List.cons_append]
        have hcw : isWordChar c = false := by
          have hcc := hunif c (List.mem_cons_self _ _)
          rw [hw] at hcc
          exact hcc
        refine ⟨fun u h => ?_, fun u h => ?_⟩
        · rw [List.cons.injEq] at h
          rw [h.1] at hcw
          exact absurd hcw (by decide)
        · rw [List.cons.injEq] at h
          cases t2 with
          | nil =>
            rw [List.nil_append] at h
            exact (ih hts).1 u h.2
          | cons e t3 =>
            rw [List.cons_append, List.cons.injEq] at h
            have he := hunif e (List.mem_cons_of_mem _ (List.mem_cons_self _ _))
            rw [hw] at he
            rw [h.2.1] at he
            exact absurd he (by decide)

theorem stripTags_renderAll (r : ℚ) : ∀ ts : List (List Char),
    (∀ t ∈ ts, t ≠ [] ∧ ∀ c ∈ t, isWordChar c = isWordToken t) →
    stripTags ((ts.map (renderToken r)).flatten) = ts.flatten := by
  intro ts
  induction ts with
  | nil => exact fun _ => rfl
  | cons t ts ih =>
    intro hgood
    have hts : ∀ u ∈ ts, u ≠ [] ∧ ∀ c ∈ u, isWordChar c = isWordToken u :=
      fun u hu => hgood u (List.mem_cons_of_mem _ hu)
    obtain ⟨htne, hunif⟩ := hgood t (List.mem_cons_self _ _)
    simp only [List.map_cons, List.flatten_cons]
    cases hw : isWordToken t with
    | false =>
      rw [renderToken_other r t hw]
      have hother : ∀ c ∈ t, isWordChar c = false := fun c hc => (hunif c hc).trans hw
      rw [stripTags_other_append t hother _ (renderAll_safe r ts hts), ih hts]
    | true =>
      have hword : ∀ c ∈ t, isWordChar c = true := fun c hc => (hunif c hc).trans hw
      rw [renderToken_word r t hw]
      simp only [List.cons_append, List.append_assoc]
      rw [stripTags_open]
      rw [stripTags_word_append (t.take (bold_len r t.length).toNat)
        (fun c hc => hword c (List.take_subset _ _ hc))]
      rw [stripTags_close]
      rw [stripTags_word_append (t.drop (bold_len r t.length).toNat)
        (fun c hc => hword c (List.drop_subset _ _ hc))]
      rw [ih hts, ← List.append_assoc, List.take_append_drop]

theorem stripTags_bionic (text : List Char) (r : ℚ) :
    stripTags (bionic_reading text r) = text := by
  have hgood : ∀ t ∈ tokenize text, t ≠ [] ∧ ∀ c ∈ t, isWordChar c = isWordToken t :=
    fun t ht => ⟨tokenize_ne_nil text t ht, tokenize_uniform text t ht⟩
  unfold bionic_reading
  rw [stripTags_renderAll r (tokenize text) hgood, tokenize_flatten]

/-- Claim C10, corrected: the emitter performs no escaping — `<`, `>` and
`&` are copied raw into the output (the input `<b>` renders as `<<b>b</b>>`
and `&` passes through verbatim) — but, contrary to the claimed
non-recovery, removing the occurrences of the emitted tag strings `<b>` and
`</b>` present in `bionic_reading(text, r)` (one left-to-right pass,
`stripTags`; the occurrences are pairwise disjoint) recovers the original
text exactly, for every input text and every ratio: the tokenizer isolates
every word character into a wrapped word token, so original characters never
form part of a tag occurrence in the output. -/
theorem no_escaping_strip_recovers (text : List Char) (r : ℚ) :
    bionic_reading ['<', 'b', '>'] (2/5 : ℚ) =
        ['<', '<', 'b', '>', 'b', '<', '/', 'b', '>', '>'] ∧
      bionic_reading ['&'] (2/5 : ℚ) = ['&'] ∧
      stripTags (bionic_reading text r) = text := by
  refine ⟨?_, ?_, stripTags_bionic text r⟩
  · have h1 : tokenize ['<', 'b', '>'] = [['<'], ['b'], ['>']] := by decide
    have h2 : bold_len (2/5 : ℚ) 1 = 1 := by norm_num [bold_len, ratTrunc]
    simp +decide [bionic_reading, h1, renderToken, h2]
  · have h3 : tokenize ['&'] = [['&']] := by decide
    simp +decide [bionic_reading, h3, renderToken]

/-- Claim C10's stated existential is false: there is no input text and
ratio for which removing the tag-string occurrences present in the output
(`stripTags`) fails to recover the original; at the claim's own example
input `<b>`, the removal yields `<b>` back. -/
theorem markup_removal_counterexample :
    stripTags (bionic_reading ['<', 'b', '>'] (2/5 : ℚ)) = ['<', 'b', '>'] ∧
      ¬ ∃ (text : List Char) (r : ℚ), stripTags (bionic_reading text r) ≠ text := by
  refine ⟨stripTags_bionic _ _, ?_⟩
  rintro ⟨text, r, h⟩
  exact h (stripTags_bionic text r)
